import Mathlib

/-!
Verification of the text-extraction and chunking core of the oreilly-ingest
repository (src/core/text_extractor.py and src/plugins/chunking.py).

Texts are modelled as `List Char` (Python `str` is a sequence of code points,
and every input considered here is ASCII, so Python's unicode-aware whitespace
predicates coincide with the ASCII whitespace set used below).

Python `int(x * 1.3)`, `int(estimated_chars * ratio)` and the `* 0.8` / `* 1.2`
comparisons are performed in floating point by the source; at the integer
magnitudes reachable here the floating-point results agree with exact rational
arithmetic, so they are modelled as exact floor divisions
(`13 * w / 10`, `(estimatedChars * tokenCount) / actual`) and exact cross
multiplications (`10 * actual < 8 * tokenCount`, etc.).
-/

namespace OIngest

/-- Whitespace set of Python `str.strip` / `str.split` / `\s`, restricted to
ASCII: space, tab, newline, carriage return, vertical tab, form feed. -/
def isPySpace (c : Char) : Bool :=
  c = ' ' ∨ c = '\t' ∨ c = '\n' ∨ c = '\r' ∨ c = '\x0b' ∨ c = '\x0c'

/-- Python `str.strip()`: drop whitespace from both ends. -/
def pyStrip (l : List Char) : List Char :=
  ((l.dropWhile isPySpace).reverse.dropWhile isPySpace).reverse

/-- Word counter for Python `len(text.split())`: number of maximal runs of
non-whitespace characters. The flag records whether we are inside a word. -/
def countWordsAux : Bool → List Char → Nat
  | _, [] => 0
  | false, c :: cs => if isPySpace c then countWordsAux false cs else countWordsAux true cs + 1
  | true, c :: cs => if isPySpace c then countWordsAux false cs else countWordsAux true cs

/-- Python `len(text.split())`. -/
def pyWordCount (l : List Char) : Nat := countWordsAux false l

/-- chunking.py line 246: `int(len(text.split()) * 1.3)` — the word-count
heuristic used when no token plugin is reachable. -/
def fallbackTokenCount (l : List Char) : Nat := 13 * pyWordCount l / 10

/-- chunking.py `_get_token_count`: ask the token plugin when the kernel
provides one and its call succeeds, otherwise fall back to the heuristic.
`none` models `self.kernel.get("token")` being unavailable (or raising);
an `Except.error` models `count_tokens` raising. -/
def getTokenCount (oracle : Option (List Char → Except String Nat)) (l : List Char) : Nat :=
  match oracle with
  | none => fallbackTokenCount l
  | some f =>
    match f l with
    | .ok n => n
    | .error _ => fallbackTokenCount l

/-- Python slice `text[a:b]` for nonnegative bounds. -/
def pySliceN (l : List Char) (a b : Nat) : List Char := (l.drop a).take (b - a)

/-- Python slice `text[a:b]` with possibly negative bounds: a negative index
counts from the end and is clamped at 0. -/
def pySliceI (l : List Char) (a b : Int) : List Char :=
  let n : Int := l.length
  let lo : Nat := (if a < 0 then max (n + a) 0 else min a n).toNat
  let hi : Nat := (if b < 0 then max (n + b) 0 else min b n).toNat
  (l.drop lo).take (hi - lo)

/-- chunking.py `_estimate_char_position(text, start, token_count)`:
4-chars-per-token initial budget, one-shot correction by the measured token
ratio, clamped to the text length. `start` may be negative (the overlap call
passes `end - overlap*4`), hence the `Int` argument and Python slice
semantics. -/
def estimateCharPosition (tok : List Char → Nat) (text : List Char) (start : Int)
    (tokenCount : Nat) : Int :=
  if (text.length : Int) ≤ start + (tokenCount * 4 : Nat) then (text.length : Int)
  else if 10 * tok (pySliceI text start (start + (tokenCount * 4 : Nat))) <
      8 * tokenCount then
    min (start + ((tokenCount * 4 * tokenCount) /
      max (tok (pySliceI text start (start + (tokenCount * 4 : Nat)))) 1 : Nat))
      (text.length : Int)
  else if 12 * tokenCount <
      10 * tok (pySliceI text start (start + (tokenCount * 4 : Nat))) then
    min (start + ((tokenCount * 4 * tokenCount) /
      tok (pySliceI text start (start + (tokenCount * 4 : Nat))) : Nat))
      (text.length : Int)
  else min (start + (tokenCount * 4 : Nat)) (text.length : Int)

/-- End positions (`match.end()`) of the non-overlapping matches of
`re.compile(r"\n\n+")` (chunking.py `PARAGRAPH_BREAK`): ends of maximal runs
of at least two newlines. `pos` is the index of the head of the remaining
list, `run` the length of the newline run just before it. -/
def paraEndsAux : List Char → Nat → Nat → List Nat
  | [], pos, run => if 2 ≤ run then [pos] else []
  | c :: cs, pos, run =>
    if c = '\n' then paraEndsAux cs (pos + 1) (run + 1)
    else if 2 ≤ run then pos :: paraEndsAux cs (pos + 1) 0
    else paraEndsAux cs (pos + 1) 0

def paraEnds (l : List Char) : List Nat := paraEndsAux l 0 0

/-- Scanner phase for `re.compile(r"[.!?]\s+")` (chunking.py
`SENTENCE_ENDINGS`). -/
inductive SentPhase where
  | normal
  | afterPunct
  | inRun
deriving DecidableEq

def isSentPunct (c : Char) : Bool := c = '.' ∨ c = '!' ∨ c = '?'

/-- End positions (`match.end()`) of the non-overlapping, greedy matches of
`[.!?]\s+`: a sentence punctuation character followed by a maximal
whitespace run; the match ends after the run. -/
def sentEndsAux : SentPhase → Nat → List Char → List Nat
  | ph, pos, [] => if ph = .inRun then [pos] else []
  | .inRun, pos, c :: cs =>
    if isPySpace c then sentEndsAux .inRun (pos + 1) cs
    else pos :: sentEndsAux (if isSentPunct c then .afterPunct else .normal) (pos + 1) cs
  | .afterPunct, pos, c :: cs =>
    if isPySpace c then sentEndsAux .inRun (pos + 1) cs
    else sentEndsAux (if isSentPunct c then .afterPunct else .normal) (pos + 1) cs
  | .normal, pos, c :: cs =>
    sentEndsAux (if isSentPunct c then .afterPunct else .normal) (pos + 1) cs

def sentEnds (l : List Char) : List Nat := sentEndsAux .normal 0 l

/-- Index of the last occurrence of `c` in `l`, if any. -/
def lastIdxOf (c : Char) : List Char → Option Nat
  | [] => none
  | x :: xs =>
    match lastIdxOf c xs with
    | some i => some (i + 1)
    | none => if x = c then some 0 else none

/-- Python `text.rfind(" ", lo, hi)` (result `none` for `-1`). -/
def lastSpaceBefore (text : List Char) (lo hi : Nat) : Option Nat :=
  (lastIdxOf ' ' (pySliceN text lo (min hi text.length))).map (lo + ·)

/-- chunking.py `_find_break_point(text, target_pos)` with the default
`search_window=500` (its only call): paragraph break, else latest admissible
sentence ending, else the character after the last space before
`target_pos + 50`, else `target_pos`. The window is
`text[max(0, target-500) : min(len, target+250)]`. -/
def fbpWindowStart (targetPos : Nat) : Nat := targetPos - 500

def fbpWindowEnd (text : List Char) (targetPos : Nat) : Nat :=
  min text.length (targetPos + 500 / 2)

def fbpWindow (text : List Char) (targetPos : Nat) : List Char :=
  pySliceN text (fbpWindowStart targetPos) (fbpWindowEnd text targetPos)

def findBreakPoint (text : List Char) (targetPos : Nat) : Nat :=
  match (paraEnds (fbpWindow text targetPos)).find?
      (fun e => decide (fbpWindowStart targetPos + 500 / 2 ≤ fbpWindowStart targetPos + e ∧
                        fbpWindowStart targetPos + e ≤ fbpWindowEnd text targetPos)) with
  | some e => fbpWindowStart targetPos + e
  | none =>
    match ((sentEnds (fbpWindow text targetPos)).filter
        (fun e => decide (fbpWindowStart targetPos + e ≤ targetPos + 500 / 4))).getLast? with
    | some e => fbpWindowStart targetPos + e
    | none =>
      match lastSpaceBefore text (fbpWindowStart targetPos) (targetPos + 50) with
      | some p => if fbpWindowStart targetPos < p then p + 1 else targetPos
      | none => targetPos

/-- chunking.py lines 174-175:
`next_start = end - min(overlap_chars, end - start - 1)` followed by
`start = max(next_start, start + 1)`. -/
def nextStartFrom (oc : Int) (s e : Nat) : Nat :=
  (max ((e : Int) - min oc ((e : Int) - (s : Int) - 1)) ((s : Int) + 1)).toNat

/-- chunking.py lines 150-151: the estimated raw end, clamped to the text
length. -/
def iterTargetEnd (tok : List Char → Nat) (text : List Char) (chunkSize start : Nat) : Nat :=
  min (estimateCharPosition tok text start chunkSize).toNat text.length

/-- chunking.py lines 153-156: move to a break point only when boundaries are
respected and the raw end is strictly inside the text. -/
def iterBreak (tok : List Char → Nat) (text : List Char) (chunkSize : Nat)
    (respectBoundaries : Bool) (start : Nat) : Nat :=
  if respectBoundaries && decide (iterTargetEnd tok text chunkSize start < text.length) then
    findBreakPoint text (iterTargetEnd tok text chunkSize start)
  else iterTargetEnd tok text chunkSize start

/-- chunking.py lines 158-159: fall back to the raw target when the break
point does not lie strictly after `start`. -/
def iterEnd (tok : List Char → Nat) (text : List Char) (chunkSize : Nat)
    (respectBoundaries : Bool) (start : Nat) : Nat :=
  if iterBreak tok text chunkSize respectBoundaries start ≤ start then
    iterTargetEnd tok text chunkSize start
  else iterBreak tok text chunkSize respectBoundaries start

/-- The overlap step (chunking.py line 173): `overlap_chars` is
`_estimate_char_position(text, end - overlap*4, overlap)` when `overlap > 0`,
else `0`. -/
def overlapChars (tok : List Char → Nat) (text : List Char) (overlap : Nat) (e : Nat) : Int :=
  if 0 < overlap then
    estimateCharPosition tok text ((e : Int) - 4 * (overlap : Int)) overlap
  else 0

/-- The `while start < text_len` loop of chunking.py `chunk_text`, recorded as
the list of per-iteration `(start, end)` offset pairs in order. The recursion
is driven by a fuel argument; `chunkLoop_le_sub` and `chunkLoop_fuel_stable`
below show that `text.length` fuel always completes the loop, which is exactly
the source's termination argument (the cursor gains at least one character per
iteration). -/
def chunkLoop (tok : List Char → Nat) (text : List Char) (chunkSize overlap : Nat)
    (respectBoundaries : Bool) : Nat → Nat → List (Nat × Nat)
  | 0, _ => []
  | fuel + 1, start =>
    if text.length ≤ start then []
    else
      (start, iterEnd tok text chunkSize respectBoundaries start) ::
        chunkLoop tok text chunkSize overlap respectBoundaries fuel
          (nextStartFrom
            (overlapChars tok text overlap (iterEnd tok text chunkSize respectBoundaries start))
            start (iterEnd tok text chunkSize respectBoundaries start))

/-- All `(start, end)` iteration pairs of `chunk_text`. -/
def chunkIters (tok : List Char → Nat) (text : List Char) (chunkSize overlap : Nat)
    (respectBoundaries : Bool) : List (Nat × Nat) :=
  chunkLoop tok text chunkSize overlap respectBoundaries text.length 0

/-- A chunk record as built by chunking.py lines 161-171. -/
structure Chunk where
  content : List Char
  token_count : Nat
  start_offset : Nat
  end_offset : Nat
deriving DecidableEq

/-- Emission step of the loop body: the stripped slice, kept only when
non-empty, with its untrimmed offsets. -/
def chunkOfSpan (tok : List Char → Nat) (text : List Char) (se : Nat × Nat) : Option Chunk :=
  if (pyStrip (pySliceN text se.1 se.2)).isEmpty then none
  else some ⟨pyStrip (pySliceN text se.1 se.2), tok (pyStrip (pySliceN text se.1 se.2)),
             se.1, se.2⟩

/-- chunking.py `chunk_text`. -/
def chunkText (tok : List Char → Nat) (text : List Char) (chunkSize overlap : Nat)
    (respectBoundaries : Bool) : List Chunk :=
  if text.isEmpty then []
  else (chunkIters tok text chunkSize overlap respectBoundaries).filterMap (chunkOfSpan tok text)

/-! ## Extractor (src/core/text_extractor.py)

The repository code is the three `HTMLParser` callbacks plus the final
normalization; HTML tokenization itself is the Python standard library.
The callbacks are therefore embedded as a fold over the stream of parser
events (start tag with attributes, end tag, character data) that
`html.parser` delivers for a document. -/

/-- text_extractor.py `CodeBlock`. -/
structure CodeBlock where
  language : List Char
  code : List Char
deriving DecidableEq

/-- One `html.parser` callback event. -/
inductive HtmlEvent where
  | startTag (tag : String) (attrs : List (String × List Char))
  | endTag (tag : String)
  | chars (d : List Char)
deriving DecidableEq

/-- text_extractor.py `_HTMLTextExtractor.__init__` state. `result` is kept
joined (the source keeps a list of fragments and joins at the end). -/
structure ExtState where
  result : List Char
  code_blocks : List CodeBlock
  in_code : Bool
  code_buffer : List (List Char)
  code_language : List Char
  in_pre : Bool
  skip_content : Bool
deriving DecidableEq

def initState : ExtState := ⟨[], [], false, [], [], false, false⟩

def BLOCK_TAGS : List String :=
  ["p", "div", "br", "h1", "h2", "h3", "h4", "h5", "h6", "li", "tr",
   "blockquote", "section", "article", "header", "footer"]

def LIST_TAGS : List String := ["ul", "ol"]

def CODE_TAGS : List String := ["pre", "code"]

/-- Python `dict(attrs)[k]` (last occurrence of a key wins) as used by
`attrs_dict = dict(attrs)` plus `.get`. -/
def attrLookup (attrs : List (String × List Char)) (k : String) : Option (List Char) :=
  match attrs with
  | [] => none
  | (k', v) :: rest =>
    match attrLookup rest k with
    | some v' => some v'
    | none => if k' = k then some v else none

/-- Python `s.replace(pat, "")` (all non-overlapping occurrences, left to
right). The fuel equals the input length, which suffices because every step
consumes at least one character (`pat` is never empty at the call sites). -/
def replaceAllAux (pat : List Char) : Nat → List Char → List Char
  | _, [] => []
  | 0, l => l
  | fuel + 1, c :: cs =>
    if pat.isPrefixOf (c :: cs) then replaceAllAux pat fuel (List.drop pat.length (c :: cs))
    else c :: replaceAllAux pat fuel cs

def replaceAll (pat l : List Char) : List Char := replaceAllAux pat l.length l

/-- Python `str.split()` on whitespace (used for class attribute tokens). -/
def splitWsAux : List Char → List Char → List (List Char)
  | [], acc => if acc.isEmpty then [] else [acc.reverse]
  | c :: cs, acc =>
    if isPySpace c then
      if acc.isEmpty then splitWsAux cs [] else acc.reverse :: splitWsAux cs []
    else splitWsAux cs (c :: acc)

def splitWs (l : List Char) : List (List Char) := splitWsAux l []

def toLowerStr (l : List Char) : List Char := l.map Char.toLower

def knownLanguages : List (List Char) :=
  ["python".data, "javascript".data, "typescript".data, "java".data, "c".data,
   "cpp".data, "csharp".data, "go".data, "rust".data, "ruby".data, "php".data,
   "swift".data, "kotlin".data, "scala".data, "sql".data, "html".data,
   "css".data, "bash".data, "shell".data, "json".data, "yaml".data, "xml".data]

/-- First loop of `_detect_language`: prefix classes, with Python
`str.replace(prefix, "")`. -/
def langFromCls (cls : List Char) : Option (List Char) :=
  let l := toLowerStr cls
  if ("language-".data).isPrefixOf l then some (replaceAll "language-".data l)
  else if ("lang-".data).isPrefixOf l then some (replaceAll "lang-".data l)
  else if ("highlight-".data).isPrefixOf l then some (replaceAll "highlight-".data l)
  else none

/-- text_extractor.py `_detect_language(attrs)`. -/
def detectLanguage (attrs : List (String × List Char)) : List Char :=
  let classes := splitWs ((attrLookup attrs "class").getD [])
  match classes.findSome? langFromCls with
  | some lang => lang
  | none =>
    let dataLang := (attrLookup attrs "data-lang").getD []
    if ¬dataLang.isEmpty then toLowerStr dataLang
    else
      (classes.findSome? (fun cls =>
        let l := toLowerStr cls
        if l ∈ knownLanguages then some l else none)).getD []

/-- The fenced rendering `f"\n```{lang_marker}\n{code}\n```\n"`. -/
def fencePiece (lang code : List Char) : List Char :=
  "\n```".data ++ lang ++ "\n".data ++ code ++ "\n```\n".data

/-- text_extractor.py `handle_starttag`. -/
def handleStarttag (st : ExtState) (tag : String) (attrs : List (String × List Char)) :
    ExtState :=
  if tag = "script" ∨ tag = "style" then { st with skip_content := true }
  else if tag = "pre" then
    { st with in_pre := true, in_code := true,
              code_language := detectLanguage attrs, code_buffer := [] }
  else if tag = "code" ∧ ¬st.in_pre then
    { st with in_code := true,
              code_language := detectLanguage attrs, code_buffer := [] }
  else if tag ∈ BLOCK_TAGS then { st with result := st.result ++ "\n".data }
  else if tag = "li" then { st with result := st.result ++ "\n- ".data }
  else if tag = "br" then { st with result := st.result ++ "\n".data }
  else st

/-- text_extractor.py `handle_endtag`. The source computes a flush (or not)
and then unconditionally resets the mode flags; here each branch carries the
resets, and the `pre` flush's two nested guards (`if self._code_buffer:` then
`if code:`) are one conjunction. -/
def handleEndtag (st : ExtState) (tag : String) : ExtState :=
  if tag = "script" ∨ tag = "style" then { st with skip_content := false }
  else if tag = "pre" then
    if ¬st.code_buffer.isEmpty ∧ ¬(pyStrip st.code_buffer.flatten).isEmpty then
      { st with
        code_blocks := st.code_blocks ++
          [⟨st.code_language, pyStrip st.code_buffer.flatten⟩],
        result := st.result ++ fencePiece st.code_language (pyStrip st.code_buffer.flatten),
        in_pre := false, in_code := false, code_buffer := [], code_language := [] }
    else
      { st with in_pre := false, in_code := false, code_buffer := [], code_language := [] }
  else if tag = "code" ∧ ¬st.in_pre then
    if ¬(pyStrip st.code_buffer.flatten).isEmpty ∧
        ¬(pyStrip st.code_buffer.flatten).contains '\n' ∧
        (pyStrip st.code_buffer.flatten).length < 100 then
      { st with
        result := st.result ++ "`".data ++ pyStrip st.code_buffer.flatten ++ "`".data,
        in_code := false, code_buffer := [], code_language := [] }
    else if ¬(pyStrip st.code_buffer.flatten).isEmpty then
      { st with
        code_blocks := st.code_blocks ++
          [⟨st.code_language, pyStrip st.code_buffer.flatten⟩],
        result := st.result ++ fencePiece st.code_language (pyStrip st.code_buffer.flatten),
        in_code := false, code_buffer := [], code_language := [] }
    else
      { st with in_code := false, code_buffer := [], code_language := [] }
  else if tag ∈ BLOCK_TAGS then { st with result := st.result ++ "\n".data }
  else st

/-- text_extractor.py `handle_data`. -/
def handleData (st : ExtState) (d : List Char) : ExtState :=
  if st.skip_content then st
  else if st.in_code then { st with code_buffer := st.code_buffer ++ [d] }
  else { st with result := st.result ++ d }

def handleEvent (st : ExtState) : HtmlEvent → ExtState
  | .startTag tag attrs => handleStarttag st tag attrs
  | .endTag tag => handleEndtag st tag
  | .chars d => handleData st d

def feedEvents (st : ExtState) (evs : List HtmlEvent) : ExtState :=
  evs.foldl handleEvent st

/-! ### Whitespace normalization (text_extractor.py `_normalize_whitespace`)

Each `re.sub` pass is embedded as a single character scan computing the same
replacement set; `^`/`$` under `re.MULTILINE` match at the start/end of the
string and after/before every newline, and `\s` inside the anchored patterns
also matches newlines. -/

/-- `re.sub(r"[ \t]+", " ", text)`: each maximal run of spaces/tabs becomes
one space. The flag records whether the previous character was a space/tab. -/
def collapseSpacesAux : Bool → List Char → List Char
  | _, [] => []
  | prevSp, c :: cs =>
    if c = ' ' ∨ c = '\t' then
      if prevSp then collapseSpacesAux true cs else ' ' :: collapseSpacesAux true cs
    else c :: collapseSpacesAux false cs

/-- `re.sub(r"\n{3,}", "\n\n", text)`: of every maximal newline run, at most
two newlines survive. `run` counts the newlines already seen in the current
run. -/
def collapseNewlinesAux : Nat → List Char → List Char
  | _, [] => []
  | run, c :: cs =>
    if c = '\n' then
      if run < 2 then '\n' :: collapseNewlinesAux (run + 1) cs
      else collapseNewlinesAux (run + 1) cs
    else c :: collapseNewlinesAux 0 cs

/-- `re.sub(r"^\s+", "", text, flags=re.MULTILINE)`: a character is removed
iff it is whitespace and is connected through whitespace to a line start
(string start or a position right after a newline of the original text).
`lineStart` says the current position is such a start; `prevRemoved` says the
previous character was removed. -/
def stripLineLeadsAux : Bool → Bool → List Char → List Char
  | _, _, [] => []
  | lineStart, prevRemoved, c :: cs =>
    if isPySpace c ∧ (lineStart ∨ prevRemoved) then
      stripLineLeadsAux (c = '\n') true cs
    else c :: stripLineLeadsAux (c = '\n') false cs

/-- `re.sub(r"\s+$", "", text, flags=re.MULTILINE)`: a character is removed
iff it is whitespace and is connected through whitespace to a line end (end
of string or a position right before a newline of the original text). The
second component reports whether the head of the processed suffix was
removed. -/
def stripLineTrailsAux : List Char → List Char × Bool
  | [] => ([], false)
  | c :: cs =>
    let r := stripLineTrailsAux cs
    let rem := isPySpace c ∧ (cs.isEmpty ∨ cs.head? = some '\n' ∨ r.2)
    (if rem then r.1 else c :: r.1, rem)

/-- text_extractor.py `_normalize_whitespace`. -/
def normalizeWhitespace (l : List Char) : List Char :=
  pyStrip (stripLineTrailsAux (stripLineLeadsAux true false
    (collapseNewlinesAux 0 (collapseSpacesAux false l)))).1

/-- text_extractor.py `ExtractedContent`. -/
structure ExtractedContent where
  text : List Char
  code_blocks : List CodeBlock
deriving DecidableEq

/-- text_extractor.py `TextExtractor.extract`, taking the parser event stream
of the document. -/
def extractFromEvents (evs : List HtmlEvent) : ExtractedContent :=
  let st := feedEvents initState evs
  ⟨normalizeWhitespace st.result, st.code_blocks⟩

/-! ## Generic properties of the chunking loop -/

theorem nextStartFrom_ge (oc : Int) (s e : Nat) : s + 1 ≤ nextStartFrom oc s e := by
  have h := le_max_right ((e : Int) - min oc ((e : Int) - (s : Int) - 1)) ((s : Int) + 1)
  simp only [nextStartFrom]
  omega

theorem nextStartFrom_le_end (oc : Int) (s e : Nat) (hoc : 0 ≤ oc) (hse : s + 1 ≤ e) :
    nextStartFrom oc s e ≤ e := by
  simp only [nextStartFrom]
  have h1 : (0 : Int) ≤ min oc ((e : Int) - (s : Int) - 1) := by
    have : (0 : Int) ≤ (e : Int) - (s : Int) - 1 := by omega
    omega
  omega

theorem chunkLoop_length_le (tok : List Char → Nat) (text : List Char)
    (cs o : Nat) (rb : Bool) :
    ∀ fuel start, (chunkLoop tok text cs o rb fuel start).length ≤ text.length - start := by
  intro fuel
  induction fuel with
  | zero => intro start; simp [chunkLoop]
  | succ n ih =>
    intro start
    rw [chunkLoop]
    split
    · simp
    · rename_i hlt
      have h1 := ih (nextStartFrom
        (overlapChars tok text o (iterEnd tok text cs rb start)) start
        (iterEnd tok text cs rb start))
      have h2 := nextStartFrom_ge
        (overlapChars tok text o (iterEnd tok text cs rb start)) start
        (iterEnd tok text cs rb start)
      simp only [List.length_cons]
      omega

theorem chunkLoop_fuel_stable (tok : List Char → Nat) (text : List Char)
    (cs o : Nat) (rb : Bool) :
    ∀ f g start, text.length - start ≤ f → text.length - start ≤ g →
      chunkLoop tok text cs o rb f start = chunkLoop tok text cs o rb g start := by
  intro f
  induction f with
  | zero =>
    intro g start hf _
    cases g with
    | zero => rfl
    | succ g' =>
      rw [chunkLoop, chunkLoop, if_pos (by omega)]
  | succ f' ih =>
    intro g start hf hg
    cases g with
    | zero =>
      rw [chunkLoop, chunkLoop, if_pos (by omega)]
    | succ g' =>
      rw [chunkLoop, chunkLoop]
      split
      · rfl
      · rename_i hlt
        push_neg at hlt
        have hge := nextStartFrom_ge
          (overlapChars tok text o (iterEnd tok text cs rb start)) start
          (iterEnd tok text cs rb start)
        rw [ih g' _ (by omega) (by omega)]

theorem chunkLoop_start_le (tok : List Char → Nat) (text : List Char)
    (cs o : Nat) (rb : Bool) :
    ∀ fuel start, ∀ se ∈ chunkLoop tok text cs o rb fuel start, start ≤ se.1 := by
  intro fuel
  induction fuel with
  | zero => intro start se h; simp [chunkLoop] at h
  | succ n ih =>
    intro start se h
    rw [chunkLoop] at h
    split at h
    · simp at h
    · rcases List.mem_cons.mp h with h | h
      · simp [h]
      · have h1 := ih _ se h
        have h2 := nextStartFrom_ge
          (overlapChars tok text o (iterEnd tok text cs rb start)) start
          (iterEnd tok text cs rb start)
        omega

theorem chunkLoop_chain (tok : List Char → Nat) (text : List Char)
    (cs o : Nat) (rb : Bool) :
    ∀ fuel start, List.Chain' (fun p q => p.1 + 1 ≤ q.1)
      (chunkLoop tok text cs o rb fuel start) := by
  intro fuel
  induction fuel with
  | zero => intro start; simp [chunkLoop]
  | succ n ih =>
    intro start
    rw [chunkLoop]
    split
    · simp
    · refine List.chain'_cons'.mpr ⟨?_, ih _⟩
      intro q hq
      have hmem := List.mem_of_mem_head? hq
      have h1 := chunkLoop_start_le tok text cs o rb n _ q hmem
      have h2 := nextStartFrom_ge
        (overlapChars tok text o (iterEnd tok text cs rb start)) start
        (iterEnd tok text cs rb start)
      simp only
      omega

/-- Claim C7: the main loop of `chunk_text` advances its cursor `start` by at
least one character per iteration (consecutive iteration start offsets grow
strictly), and it terminates after at most `len(text)` iterations: the
iteration list has length at most `text.length`, and running the loop with any
fuel beyond `text.length` yields the same iterations — `text.length` steps
always complete the loop. This holds for every token oracle and every
configuration. -/
theorem C7_loop_advances_and_terminates (tok : List Char → Nat) (text : List Char)
    (cs o : Nat) (rb : Bool) :
    List.Chain' (fun p q => p.1 + 1 ≤ q.1) (chunkIters tok text cs o rb) ∧
    (chunkIters tok text cs o rb).length ≤ text.length ∧
    ∀ extra, chunkLoop tok text cs o rb (text.length + extra) 0 =
      chunkIters tok text cs o rb := by
  refine ⟨chunkLoop_chain tok text cs o rb text.length 0, ?_, ?_⟩
  · have := chunkLoop_length_le tok text cs o rb text.length 0
    simpa [chunkIters] using this
  · intro extra
    exact chunkLoop_fuel_stable tok text cs o rb (text.length + extra) text.length 0
      (by omega) (by omega)

/-! ## Zero-overlap behaviour (claim C10) -/

theorem chunkOfSpan_offsets (tok : List Char → Nat) (text : List Char)
    (se : Nat × Nat) (c : Chunk) (h : chunkOfSpan tok text se = some c) :
    c.start_offset = se.1 ∧ c.end_offset = se.2 ∧ se.1 < se.2 := by
  unfold chunkOfSpan at h
  split at h
  · exact absurd h (by simp)
  · rename_i hne
    have hc : c = ⟨pyStrip (pySliceN text se.1 se.2), tok (pyStrip (pySliceN text se.1 se.2)),
        se.1, se.2⟩ := by
      exact (Option.some_injective _ h).symm
    subst hc
    refine ⟨rfl, rfl, ?_⟩
    by_contra hle
    push_neg at hle
    have : pySliceN text se.1 se.2 = [] := by
      simp only [pySliceN]
      have : se.2 - se.1 = 0 := by omega
      simp [this]
    simp [this, pyStrip] at hne

theorem chunkText_mem_start_le (tok : List Char → Nat) (text : List Char)
    (cs o : Nat) (rb : Bool) (fuel start : Nat) (c : Chunk)
    (h : c ∈ (chunkLoop tok text cs o rb fuel start).filterMap (chunkOfSpan tok text)) :
    start ≤ c.start_offset := by
  rcases List.mem_filterMap.mp h with ⟨se, hse, hsome⟩
  have h1 := chunkLoop_start_le tok text cs o rb fuel start se hse
  have h2 := (chunkOfSpan_offsets tok text se c hsome).1
  omega

theorem chunkLoop_filter_chain_zero (tok : List Char → Nat) (text : List Char)
    (cs : Nat) (rb : Bool) :
    ∀ fuel start, List.Chain' (fun c₁ c₂ : Chunk => c₁.end_offset ≤ c₂.start_offset)
      ((chunkLoop tok text cs 0 rb fuel start).filterMap (chunkOfSpan tok text)) := by
  intro fuel
  induction fuel with
  | zero => intro start; simp [chunkLoop]
  | succ n ih =>
    intro start
    rw [chunkLoop]
    split
    · simp
    · rename_i hlt
      rw [List.filterMap_cons]
      split
      · exact ih _
      · rename_i c hsome
        refine List.chain'_cons'.mpr ⟨?_, ih _⟩
        intro q hq
        have hmem := List.mem_of_mem_head? hq
        have h1 := chunkText_mem_start_le tok text cs 0 rb n _ q hmem
        obtain ⟨hcs', hce, hlt'⟩ := chunkOfSpan_offsets tok text _ c hsome
        -- with zero overlap the next cursor is exactly the previous end
        have hnext : nextStartFrom (overlapChars tok text 0 (iterEnd tok text cs rb start))
            start (iterEnd tok text cs rb start) = iterEnd tok text cs rb start := by
          simp only [overlapChars, nextStartFrom, if_neg (lt_irrefl 0)]
          have h2 : (0 : Int) ≤ (iterEnd tok text cs rb start : Int) - (start : Int) - 1 := by
            simp only at hcs' hce hlt'
            omega
          omega
        rw [hnext] at h1
        simp only at hcs' hce hlt' ⊢
        omega

/-- Claim C10: with `overlap = 0`, for every token oracle, text, chunk size
and boundary setting, consecutive emitted chunks are disjoint and in
increasing offset order — each later chunk starts at or after the earlier
chunk's end. Moreover the cursor update degenerates exactly as the source
lines 173-175 dictate: the next start is the previous end, or `start + 1`
when the end did not advance past `start`. -/
theorem C10_zero_overlap_disjoint (tok : List Char → Nat) (text : List Char)
    (cs : Nat) (rb : Bool) :
    List.Chain' (fun c₁ c₂ : Chunk => c₁.end_offset ≤ c₂.start_offset)
      (chunkText tok text cs 0 rb) ∧
    ∀ s e : Nat, nextStartFrom (overlapChars tok text 0 e) s e =
      if s < e then e else s + 1 := by
  constructor
  · unfold chunkText
    split
    · simp
    · exact chunkLoop_filter_chain_zero tok text cs rb text.length 0
  · intro s e
    simp only [overlapChars, nextStartFrom, if_neg (lt_irrefl 0)]
    split
    · rename_i hlt
      have h2 : (0 : Int) ≤ (e : Int) - (s : Int) - 1 := by omega
      omega
    · rename_i hge
      omega

/-! ## Concrete evaluations for the refuted claims -/

/-- 100 words of two letters: `"aa aa ... aa"`, 299 characters. -/
def c1Text : List Char := (String.join (List.replicate 99 "aa ") ++ "aa").data

set_option maxRecDepth 100000 in
/-- Claim C1 evaluation: chunking 299 characters of ordinary word-dense text
with `chunk_size = 25`, `overlap = 5` (so `overlap*4 = 20` characters of
expected overlap) produces consecutive chunks `[9, 65)` and `[10, 66)`: the
cursor advances by a single character even though the claim's formula
predicts the next start near `65 - 20 = 45`. `_estimate_char_position`
returns an absolute position (here `≈ end`), which line 173 then subtracts
from `end` as if it were a character amount. -/
theorem C1_overlap_cursor_collapses :
    ((chunkText fallbackTokenCount c1Text 25 5 false).map
        (fun c => (c.start_offset, c.end_offset))).take 3 = [(0, 56), (9, 65), (10, 66)] ∧
    c1Text.length = 299 ∧
    overlapChars fallbackTokenCount c1Text 5 65 = 56 := by
  refine ⟨?_, by decide, by decide⟩
  decide

/-- Claim C2 evaluation: a blank-line paragraph break does NOT survive
normalization. In `re.sub(r"^\s+", "", text, re.MULTILINE)` the `\s` also
matches newlines, so of `"a\n\nb"` the second newline is removed and the
result is `"a\nb"`; the same happens through the whole `extract` pipeline for
`<p>a</p><p>b</p>`. -/
theorem C2_paragraph_break_not_preserved :
    normalizeWhitespace "a\n\nb".data = "a\nb".data ∧
    (extractFromEvents [.startTag "p" [], .chars "a".data, .endTag "p",
        .startTag "p" [], .chars "b".data, .endTag "p"]).text = "a\nb".data := by
  constructor
  · decide
  · decide

/-- Parser events of `<pre><code class="language-python">x=1</code></pre>`. -/
def c3Events : List HtmlEvent :=
  [.startTag "pre" [], .startTag "code" [("class", "language-python".data)],
   .chars "x=1".data, .endTag "code", .endTag "pre"]

/-- Claim C3 counterexample: for
`<pre><code class="language-python">x=1</code></pre>` the recorded CodeBlock
does not have language `"python"` — the inner `<code>`'s class attribute is
never consulted while inside `<pre>`. -/
theorem C3_language_counterexample :
    (extractFromEvents c3Events).code_blocks ≠ [⟨"python".data, "x=1".data⟩] := by
  decide

/-- Claim C3 as amended: the language detected for this input is the empty
string (detection ran on the outer `<pre>`'s attributes, which have no
class), the code is `"x=1"`, the text contains the unlabelled fenced block
```` ```\nx=1\n``` ````, and the inner `</code>` while `in_pre` holds is a
complete no-op (no inline-code logic is re-triggered). -/
theorem C3_pre_code_language_empty :
    extractFromEvents c3Events = ⟨"```\nx=1\n```".data, [⟨[], "x=1".data⟩]⟩ ∧
    handleEndtag
        { initState with
          in_pre := true, in_code := true, code_buffer := ["x=1".data] } "code"
      = { initState with
          in_pre := true, in_code := true, code_buffer := ["x=1".data] } := by
  constructor
  · decide
  · decide

/-- Claim C5 counterexample: the single-space text is non-empty, yet
`chunk_text` emits no chunk at all for it (the stripped slice is empty), so
the union of chunk ranges cannot cover `[0, 1)`. -/
theorem C5_coverage_counterexample :
    chunkText fallbackTokenCount [' '] 1 0 true = [] ∧
    ([' '] : List Char).length = 1 := by
  constructor
  · decide
  · decide

/-- Claim C6 evaluation: for `<ul><li>item</li></ul>` the extracted text is
`"item"` with no `"- "` bullet marker. The `elif tag == "li"` branch of
`handle_starttag` is dead code: `"li"` is already a member of `BLOCK_TAGS`,
so entering a list item emits a bare newline. -/
theorem C6_list_marker_dead_code :
    extractFromEvents [.startTag "ul" [], .startTag "li" [], .chars "item".data,
        .endTag "li", .endTag "ul"] = ⟨"item".data, []⟩ ∧
    handleStarttag initState "li" [] = { initState with result := "\n".data } ∧
    ("li" ∈ BLOCK_TAGS) ∧
    ¬ ("- ".data <:+: "item".data) := by
  refine ⟨by decide, by decide, by decide, by decide⟩

/-! ## Token-count fallback (claim C8) -/

/-- Claim C8: `_get_token_count` never propagates an oracle failure: when the
token plugin is unavailable (`none`) it returns the word-count heuristic
`int(word_count * 1.3)`, and when the plugin's call raises (`Except.error`)
the exception is swallowed and the same heuristic is returned. (As a total
Lean function, `getTokenCount` by construction lets no exception escape for
any input string.) -/
theorem C8_token_fallback_silent (f : List Char → Except String Nat) (e : String)
    (s : List Char) (h : f s = .error e) :
    getTokenCount none s = 13 * pyWordCount s / 10 ∧
    getTokenCount (some f) s = 13 * pyWordCount s / 10 := by
  constructor
  · rfl
  · simp only [getTokenCount, h, fallbackTokenCount]

theorem C8_token_fallback_silent_witness :
    getTokenCount none "hello brave world".data = 13 * pyWordCount "hello brave world".data / 10 ∧
    getTokenCount (some fun _ => Except.error "tokenizer raised") "hello brave world".data
      = 13 * pyWordCount "hello brave world".data / 10 :=
  C8_token_fallback_silent (fun _ => Except.error "tokenizer raised")
    "tokenizer raised" "hello brave world".data rfl

/-! ## Inline vs fenced code closure (claim C9) -/

/-- Claim C9: closing a `<code>` element that is not nested in `<pre>`:
if the trimmed buffered content is non-empty, contains no newline and has
fewer than 100 characters it is rendered inline in single backticks and no
CodeBlock is recorded; otherwise (newline present or 100 or more characters)
it is rendered as a fenced block and exactly one CodeBlock is appended. -/
theorem C9_inline_vs_fenced (st : ExtState) (h : st.in_pre = false) :
    (¬(pyStrip st.code_buffer.flatten).isEmpty ∧
        ¬(pyStrip st.code_buffer.flatten).contains '\n' ∧
        (pyStrip st.code_buffer.flatten).length < 100 →
      handleEndtag st "code" =
        { st with
          result := st.result ++ "`".data ++ pyStrip st.code_buffer.flatten ++ "`".data,
          in_code := false, code_buffer := [], code_language := [] }) ∧
    (¬(pyStrip st.code_buffer.flatten).isEmpty ∧
        ((pyStrip st.code_buffer.flatten).contains '\n' ∨
          100 ≤ (pyStrip st.code_buffer.flatten).length) →
      handleEndtag st "code" =
        { st with
          code_blocks := st.code_blocks ++
            [⟨st.code_language, pyStrip st.code_buffer.flatten⟩],
          result := st.result ++ fencePiece st.code_language (pyStrip st.code_buffer.flatten),
          in_code := false, code_buffer := [], code_language := [] }) := by
  have hb : ¬(st.in_pre = true) := by simp [h]
  unfold handleEndtag
  rw [if_neg (by simp), if_neg (by simp), if_pos ⟨rfl, hb⟩]
  constructor
  · intro hc
    rw [if_pos hc]
  · rintro ⟨h1, h2⟩
    have hneg : ¬(¬(pyStrip st.code_buffer.flatten).isEmpty = true ∧
        ¬(pyStrip st.code_buffer.flatten).contains '\n' = true ∧
        (pyStrip st.code_buffer.flatten).length < 100) := by
      rintro ⟨g1, g2, g3⟩
      rcases h2 with h2 | h2
      · exact g2 h2
      · omega
    rw [if_neg hneg, if_pos h1]

/-- Witness for C9 at the claim's own inputs: content `"foo"` renders inline
with no CodeBlock; 101 characters of single-line content produce a fenced
block and exactly one CodeBlock. -/
theorem C9_inline_vs_fenced_witness :
    handleEndtag { initState with code_buffer := ["foo".data] } "code" =
      { initState with
        result := "`foo`".data, code_buffer := [],
        in_code := false, code_language := [] } ∧
    handleEndtag { initState with code_buffer := [List.replicate 101 'a'] } "code" =
      { initState with
        code_blocks := [⟨[], List.replicate 101 'a'⟩],
        result := fencePiece [] (List.replicate 101 'a'), code_buffer := [],
        in_code := false, code_language := [] } := by
  constructor
  · have h := (C9_inline_vs_fenced { initState with code_buffer := ["foo".data] } rfl).1
      (by decide)
    rw [h]
    decide
  · have h := (C9_inline_vs_fenced
        { initState with code_buffer := [List.replicate 101 'a'] } rfl).2
      (by decide)
    rw [h]
    decide

/-! ## Fenced blocks and code_blocks correspondence (claim C4) -/

def blockPieces (bs : List CodeBlock) : List (List Char) :=
  bs.map (fun b => fencePiece b.language b.code)

/-- The strings of `ps` occur as disjoint substrings of `t`, in order. -/
def InOrderPieces : List Char → List (List Char) → Prop
  | _, [] => True
  | t, p :: ps => ∃ a rest, t = a ++ p ++ rest ∧ InOrderPieces rest ps

theorem inOrderPieces_append_right (t s : List Char) (ps : List (List Char))
    (h : InOrderPieces t ps) : InOrderPieces (t ++ s) ps := by
  induction ps generalizing t with
  | nil => trivial
  | cons p ps ih =>
    rcases h with ⟨a, rest, hsplit, hr⟩
    exact ⟨a, rest ++ s, by rw [hsplit]; simp, ih rest hr⟩

theorem inOrderPieces_snoc (t p : List Char) (ps : List (List Char))
    (h : InOrderPieces t ps) : InOrderPieces (t ++ p) (ps ++ [p]) := by
  induction ps generalizing t with
  | nil => exact ⟨t, [], by simp, trivial⟩
  | cons q ps ih =>
    rcases h with ⟨a, rest, hsplit, hr⟩
    exact ⟨a, rest ++ p, by rw [hsplit]; simp, ih rest hr⟩

/-- Parser-state invariant: every recorded CodeBlock has its fenced rendering
embedded in the accumulated raw text, in document order. -/
def ExtInv (st : ExtState) : Prop :=
  InOrderPieces st.result (blockPieces st.code_blocks)

theorem extInv_starttag (st : ExtState) (tag : String)
    (attrs : List (String × List Char)) (h : ExtInv st) :
    ExtInv (handleStarttag st tag attrs) := by
  unfold handleStarttag
  split_ifs <;>
    first
      | exact h
      | exact inOrderPieces_append_right _ _ _ h

theorem blockPieces_snoc (bs : List CodeBlock) (b : CodeBlock) :
    blockPieces (bs ++ [b]) = blockPieces bs ++ [fencePiece b.language b.code] := by
  simp [blockPieces]

theorem extInv_fence (st : ExtState) (h : ExtInv st) :
    InOrderPieces (st.result ++ fencePiece st.code_language (pyStrip st.code_buffer.flatten))
      (blockPieces (st.code_blocks ++ [⟨st.code_language, pyStrip st.code_buffer.flatten⟩])) := by
  rw [blockPieces_snoc]
  exact inOrderPieces_snoc _ _ _ h

theorem extInv_endtag (st : ExtState) (tag : String) (h : ExtInv st) :
    ExtInv (handleEndtag st tag) := by
  unfold handleEndtag
  split_ifs
  all_goals try exact h
  all_goals try exact inOrderPieces_append_right _ _ _ h
  all_goals try
    (show InOrderPieces (st.result ++ "`".data ++ pyStrip st.code_buffer.flatten ++ "`".data)
        (blockPieces st.code_blocks)
     rw [List.append_assoc, List.append_assoc]
     exact inOrderPieces_append_right _ _ _ h)
  all_goals exact extInv_fence st h

theorem extInv_data (st : ExtState) (d : List Char) (h : ExtInv st) :
    ExtInv (handleData st d) := by
  unfold handleData
  split_ifs <;>
    first
      | exact h
      | exact inOrderPieces_append_right _ _ _ h

theorem extInv_feed (evs : List HtmlEvent) (st : ExtState) (h : ExtInv st) :
    ExtInv (feedEvents st evs) := by
  induction evs generalizing st with
  | nil => exact h
  | cons ev evs ih =>
    have hstep : ExtInv (handleEvent st ev) := by
      cases ev with
      | startTag tag attrs => exact extInv_starttag st tag attrs h
      | endTag tag => exact extInv_endtag st tag h
      | chars d => exact extInv_data st d h
    exact ih (handleEvent st ev) hstep

/-- Claim C4 counterexample: normalization does not keep the code verbatim
inside the fence. For `<pre>x  =  1</pre>` the recorded CodeBlock's code is
`"x  =  1"`, but `extract`'s text contains `"x = 1"` (interior space runs
collapsed), so the fenced rendering of the recorded block is not a substring
of the returned text. -/
theorem C4_verbatim_counterexample :
    (extractFromEvents [.startTag "pre" [], .chars "x  =  1".data, .endTag "pre"]).code_blocks
      = [⟨[], "x  =  1".data⟩] ∧
    ¬ (("```\nx  =  1\n```".data) <:+:
        (extractFromEvents [.startTag "pre" [], .chars "x  =  1".data, .endTag "pre"]).text) := by
  constructor
  · decide
  · decide

/-- Claim C4 as amended: in the text as assembled by the parser (before
whitespace normalization), each entry of `code_blocks` has its fenced
rendering embedded verbatim, one fenced piece per entry and in the same
relative order (normalization afterwards may rewrite whitespace inside the
fences); and a `<code>` closure rendered inline (not in `<pre>`, trimmed
content single-line and under 100 characters) never appends a `code_blocks`
entry. -/
theorem C4_fenced_blocks_in_order :
    (∀ evs : List HtmlEvent,
      InOrderPieces (feedEvents initState evs).result
        (blockPieces (feedEvents initState evs).code_blocks)) ∧
    (∀ st : ExtState, st.in_pre = false →
      ¬(pyStrip st.code_buffer.flatten).contains '\n' →
      (pyStrip st.code_buffer.flatten).length < 100 →
      (handleEndtag st "code").code_blocks = st.code_blocks) := by
  constructor
  · intro evs
    exact extInv_feed evs initState trivial
  · intro st h h2 h3
    have hb : ¬(st.in_pre = true) := by simp [h]
    unfold handleEndtag
    rw [if_neg (by simp), if_neg (by simp), if_pos ⟨rfl, hb⟩]
    by_cases h1 : (pyStrip st.code_buffer.flatten).isEmpty
    · rw [if_neg (by simp [h1]), if_neg (by simp [h1])]
    · rw [if_pos ⟨h1, h2, h3⟩]

/-- Witness for C4 at a concrete document with two code regions and inline
code in between, and at a concrete inline-closure state. -/
theorem C4_fenced_blocks_in_order_witness :
    InOrderPieces
      (feedEvents initState
        [.startTag "pre" [], .chars "A".data, .endTag "pre",
         .startTag "code" [], .chars "foo".data, .endTag "code",
         .startTag "pre" [], .chars "B".data, .endTag "pre"]).result
      (blockPieces
        (feedEvents initState
          [.startTag "pre" [], .chars "A".data, .endTag "pre",
           .startTag "code" [], .chars "foo".data, .endTag "code",
           .startTag "pre" [], .chars "B".data, .endTag "pre"]).code_blocks) ∧
    (handleEndtag { initState with code_buffer := ["foo".data] } "code").code_blocks
      = ({ initState with code_buffer := ["foo".data] } : ExtState).code_blocks :=
  ⟨C4_fenced_blocks_in_order.1 _,
   C4_fenced_blocks_in_order.2 { initState with code_buffer := ["foo".data] }
     rfl (by decide) (by decide)⟩

/-! ## Coverage of the chunking loop (claim C5): arithmetic groundwork -/

theorem countWordsAux_le (l : List Char) :
    countWordsAux false l ≤ (l.length + 1) / 2 ∧ countWordsAux true l ≤ l.length / 2 := by
  induction l with
  | nil => simp [countWordsAux]
  | cons c cs ih =>
    by_cases hc : isPySpace c
    · have e1 : countWordsAux false (c :: cs) = countWordsAux false cs := by
        simp [countWordsAux, hc]
      have e2 : countWordsAux true (c :: cs) = countWordsAux false cs := by
        simp [countWordsAux, hc]
      rw [e1, e2, List.length_cons]
      omega
    · have e1 : countWordsAux false (c :: cs) = countWordsAux true cs + 1 := by
        simp [countWordsAux, hc]
      have e2 : countWordsAux true (c :: cs) = countWordsAux true cs := by
        simp [countWordsAux, hc]
      rw [e1, e2, List.length_cons]
      omega

theorem pyWordCount_le (l : List Char) : 2 * pyWordCount l ≤ l.length + 1 := by
  have h := (countWordsAux_le l).1
  simp only [pyWordCount]
  omega

/-- The heuristic token count of an ASCII text is at most about 0.65 tokens
per character: `20 * count ≤ 13 * (length + 1)`. -/
theorem fallbackTokenCount_le (l : List Char) :
    20 * fallbackTokenCount l ≤ 13 * (l.length + 1) := by
  have h1 : 13 * pyWordCount l / 10 * 10 ≤ 13 * pyWordCount l := Nat.div_mul_le_self _ _
  have h2 := pyWordCount_le l
  simp only [fallbackTokenCount]
  omega

theorem pySliceI_length_of_nonneg (l : List Char) (a b : Int) (ha : 0 ≤ a) (hb : 0 ≤ b) :
    (pySliceI l a b).length = (min b (l.length : Int)).toNat - (min a (l.length : Int)).toNat := by
  simp only [pySliceI, if_neg (by omega : ¬a < 0), if_neg (by omega : ¬b < 0),
    List.length_take, List.length_drop]
  omega

theorem estimateCharPosition_le_length (tok : List Char → Nat) (text : List Char)
    (s : Int) (tc : Nat) : estimateCharPosition tok text s tc ≤ (text.length : Int) := by
  unfold estimateCharPosition
  split_ifs <;> omega

theorem estimateCharPosition_nonneg (tok : List Char → Nat) (text : List Char)
    (s : Int) (tc : Nat) (hs : 0 ≤ s) : 0 ≤ estimateCharPosition tok text s tc := by
  unfold estimateCharPosition
  split_ifs <;>
    first
      | exact Int.natCast_nonneg _
      | exact le_min (add_nonneg hs (Int.natCast_nonneg _)) (Int.natCast_nonneg _)

/-- With the fallback token counter and a positive chunk size, the estimated
end position lies strictly after the start. -/
theorem estimateCharPosition_gt_start (text : List Char) (s tc : Nat) (htc : 1 ≤ tc)
    (hs : s < text.length) :
    (s : Int) < estimateCharPosition fallbackTokenCount text (s : Int) tc := by
  unfold estimateCharPosition
  split_ifs with h1 h2 h3
  · omega
  · -- measured count below 80%: the scaled-up budget is positive
    have hD : 1 ≤ tc * 4 * tc /
        max (fallbackTokenCount (pySliceI text (s : Int) ((s : Int) + (tc * 4 : Nat)))) 1 := by
      rw [Nat.one_le_div_iff (by omega)]
      have htc2 : tc ≤ tc * 4 * tc := by nlinarith
      have ha : fallbackTokenCount (pySliceI text (s : Int) ((s : Int) + (tc * 4 : Nat))) < tc := by
        omega
      omega
    omega
  · -- measured count above 120%: the scaled-down budget is still positive
    have hL : (pySliceI text (s : Int) ((s : Int) + (tc * 4 : Nat))).length = tc * 4 := by
      rw [pySliceI_length_of_nonneg text _ _ (by omega) (by omega)]
      omega
    have hbound := fallbackTokenCount_le (pySliceI text (s : Int) ((s : Int) + (tc * 4 : Nat)))
    rw [hL] at hbound
    have hD : 1 ≤ tc * 4 * tc /
        fallbackTokenCount (pySliceI text (s : Int) ((s : Int) + (tc * 4 : Nat))) := by
      rw [Nat.one_le_div_iff (by omega)]
      nlinarith
    omega
  · omega

/-- Product of consecutive integers is nonnegative. -/
theorem int_mul_succ_nonneg (x : Int) : 0 ≤ x * (x + 1) := by
  rcases le_or_lt 0 x with h | h
  · exact mul_nonneg h (by omega)
  · have hx : x * (x + 1) = (-x) * (-(x + 1)) := by ring
    rw [hx]
    exact mul_nonneg (by omega) (by omega)

/-- The overlap estimate `_estimate_char_position(text, end - overlap*4,
overlap)` is never negative under the fallback token counter: the word
density of any slice is too low (at most 1.3 tokens per 2 characters) for
the scaled-down budget to reach below position 0. -/
theorem estimateCharPosition_overlap_nonneg (text : List Char) (e o : Nat)
    (ho : 1 ≤ o) (_he : e ≤ text.length) :
    0 ≤ estimateCharPosition fallbackTokenCount text ((e : Int) - 4 * (o : Int)) o := by
  by_cases hs : 0 ≤ (e : Int) - 4 * (o : Int)
  · exact estimateCharPosition_nonneg _ _ _ _ hs
  push_neg at hs
  unfold estimateCharPosition
  split_ifs with h1 h2 h3
  · exact Int.natCast_nonneg _
  · -- measured count below 80% of `overlap`: the budget is scaled up
    refine le_min ?_ (Int.natCast_nonneg _)
    rcases Nat.eq_zero_or_pos (fallbackTokenCount (pySliceI text ((e : Int) - 4 * (o : Int))
        ((e : Int) - 4 * (o : Int) + (o * 4 : Nat)))) with ha0 | ha1
    · rw [ha0]
      have h4 : 4 * o ≤ o * 4 * o := by nlinarith
      have : o * 4 * o / max 0 1 = o * 4 * o := by simp
      rw [this]
      omega
    · have hmax : max (fallbackTokenCount (pySliceI text ((e : Int) - 4 * (o : Int))
          ((e : Int) - 4 * (o : Int) + (o * 4 : Nat)))) 1
          = fallbackTokenCount (pySliceI text ((e : Int) - 4 * (o : Int))
          ((e : Int) - 4 * (o : Int) + (o * 4 : Nat))) := by omega
      rw [hmax]
      have hD : 5 * o ≤ o * 4 * o / fallbackTokenCount (pySliceI text ((e : Int) - 4 * (o : Int))
          ((e : Int) - 4 * (o : Int) + (o * 4 : Nat))) := by
        rw [Nat.le_div_iff_mul_le ha1]
        nlinarith
      omega
  · -- measured count above 120% of `overlap`: scaled-down budget
    refine le_min ?_ (Int.natCast_nonneg _)
    by_contra hneg
    push_neg at hneg
    have ha2 : 1 ≤ fallbackTokenCount (pySliceI text ((e : Int) - 4 * (o : Int))
        ((e : Int) - 4 * (o : Int) + (o * 4 : Nat))) := by omega
    -- the division result is too small: the budget times target is below
    -- the measured count times the distance to position 0
    have he4 : e < 4 * o := by omega
    have hDlt : o * 4 * o / fallbackTokenCount (pySliceI text ((e : Int) - 4 * (o : Int))
        ((e : Int) - 4 * (o : Int) + (o * 4 : Nat))) < 4 * o - e := by omega
    have hm : o * 4 * o < (4 * o - e) * fallbackTokenCount (pySliceI text ((e : Int) - 4 * (o : Int))
        ((e : Int) - 4 * (o : Int) + (o * 4 : Nat))) :=
      (Nat.div_lt_iff_lt_mul ha2).mp hDlt
    -- slice length is bounded by the distance e of the end to position 0
    have hLdef : (pySliceI text ((e : Int) - 4 * (o : Int))
        ((e : Int) - 4 * (o : Int) + (o * 4 : Nat))).length
        ≤ e := by
      simp only [pySliceI, if_pos hs, if_neg (show ¬((e : Int) - 4 * (o : Int) + (o * 4 : Nat) < 0)
        by push_cast; omega), List.length_take, List.length_drop]
      push_cast
      omega
    have hbound := fallbackTokenCount_le (pySliceI text ((e : Int) - 4 * (o : Int))
        ((e : Int) - 4 * (o : Int) + (o * 4 : Nat)))
    -- abbreviate, cast to ℤ and close by the quadratic identity
    -- 4o² + 2o - (E+1)(4o - E) = (E - 2o)(E - 2o + 1) ≥ 0
    have hcons := int_mul_succ_nonneg ((e : Int) - 2 * (o : Int))
    have hmZ : (4 : Int) * o * o < (4 * o - e) *
        (fallbackTokenCount (pySliceI text ((e : Int) - 4 * (o : Int))
        ((e : Int) - 4 * (o : Int) + (o * 4 : Nat))) : Int) := by
      have h' : ((o * 4 * o : Nat) : Int) < ((4 * o - e : Nat) : Int) *
          (fallbackTokenCount (pySliceI text ((e : Int) - 4 * (o : Int))
          ((e : Int) - 4 * (o : Int) + (o * 4 : Nat))) : Int) := by
        exact_mod_cast hm
      rw [Nat.cast_sub (Nat.le_of_lt he4)] at h'
      push_cast at h'
      nlinarith [h']
    have hbZ : 20 * (fallbackTokenCount (pySliceI text ((e : Int) - 4 * (o : Int))
        ((e : Int) - 4 * (o : Int) + (o * 4 : Nat))) : Int)
        ≤ 13 * (((pySliceI text ((e : Int) - 4 * (o : Int))
        ((e : Int) - 4 * (o : Int) + (o * 4 : Nat))).length : Int) + 1) := by
      exact_mod_cast hbound
    have hLZ : ((pySliceI text ((e : Int) - 4 * (o : Int))
        ((e : Int) - 4 * (o : Int) + (o * 4 : Nat))).length : Int) ≤ (e : Int) := by
      exact_mod_cast hLdef
    have hvZ : (1 : Int) ≤ 4 * (o : Int) - (e : Int) := by omega
    have hoZ : (1 : Int) ≤ (o : Int) := by exact_mod_cast ho
    nlinarith [hcons, hmZ, hbZ, hLZ, hvZ, hoZ,
      mul_le_mul_of_nonneg_right hbZ (by omega : (0 : Int) ≤ 4 * (o : Int) - (e : Int)),
      mul_le_mul_of_nonneg_right hLZ (by omega : (0 : Int) ≤ 4 * (o : Int) - (e : Int)),
      int_mul_succ_nonneg ((o : Int) - 1)]
  · -- within tolerance: the raw target is exactly `e`
    refine le_min ?_ (Int.natCast_nonneg _)
    push_cast
    omega

theorem sentEndsAux_le (l : List Char) :
    ∀ ph pos x, x ∈ sentEndsAux ph pos l → x ≤ pos + l.length := by
  induction l with
  | nil =>
    intro ph pos x hx
    simp only [sentEndsAux] at hx
    split at hx <;> simp at hx
    omega
  | cons c cs ih =>
    intro ph pos x hx
    cases ph with
    | normal =>
      simp only [sentEndsAux] at hx
      have := ih _ _ _ hx
      simp only [List.length_cons]
      omega
    | afterPunct =>
      simp only [sentEndsAux] at hx
      split at hx <;>
        · have := ih _ _ _ hx
          simp only [List.length_cons]
          omega
    | inRun =>
      simp only [sentEndsAux] at hx
      split at hx
      · have := ih _ _ _ hx
        simp only [List.length_cons]
        omega
      · rcases List.mem_cons.mp hx with rfl | hx
        · simp only [List.length_cons]
          omega
        · have := ih _ _ _ hx
          simp only [List.length_cons]
          omega

theorem lastIdxOf_lt_length (c : Char) (l : List Char) (i : Nat)
    (h : lastIdxOf c l = some i) : i < l.length := by
  induction l generalizing i with
  | nil => simp [lastIdxOf] at h
  | cons x xs ih =>
    simp only [lastIdxOf] at h
    cases hrec : lastIdxOf c xs with
    | some j =>
      rw [hrec] at h
      have h2 := ih j hrec
      have h3 : j + 1 = i := by simpa using h
      simp only [List.length_cons]
      omega
    | none =>
      rw [hrec] at h
      by_cases hxc : x = c
      · rw [if_pos hxc] at h
        have h3 : 0 = i := by simpa using h
        simp only [List.length_cons]
        omega
      · rw [if_neg hxc] at h
        exact absurd h (by simp)

theorem mem_of_getLastQuestion {α : Type} (l : List α) (a : α) (h : l.getLast? = some a) :
    a ∈ l := by
  induction l with
  | nil => simp at h
  | cons x xs ih =>
    cases xs with
    | nil =>
      simp only [List.getLast?_singleton, Option.some_inj] at h
      simp [h]
    | cons y ys =>
      rw [List.getLast?_cons_cons] at h
      exact List.mem_cons_of_mem _ (ih h)

theorem fbpWindow_length_le (text : List Char) (t : Nat) (ht : t ≤ text.length) :
    fbpWindowStart t + (fbpWindow text t).length ≤ text.length := by
  simp only [fbpWindow, pySliceN, List.length_take, List.length_drop,
    fbpWindowStart, fbpWindowEnd]
  omega

theorem findBreakPoint_le (text : List Char) (t : Nat) (ht : t ≤ text.length) :
    findBreakPoint text t ≤ text.length := by
  unfold findBreakPoint
  split
  · rename_i e hfind
    have hp := List.find?_some hfind
    simp only [decide_eq_true_eq, fbpWindowEnd] at hp
    omega
  · split
    · rename_i e hlast
      have hmemf := mem_of_getLastQuestion _ _ hlast
      have hmem := List.mem_of_mem_filter hmemf
      have := sentEndsAux_le (fbpWindow text t) .normal 0 e hmem
      have hw := fbpWindow_length_le text t ht
      omega
    · split
      · rename_i p hspace
        simp only [lastSpaceBefore, Option.map_eq_some'] at hspace
        obtain ⟨i, hidx, rfl⟩ := hspace
        have hi := lastIdxOf_lt_length ' ' _ i hidx
        simp only [pySliceN, List.length_take, List.length_drop] at hi
        split_ifs <;> omega
      · exact ht

theorem iterTargetEnd_bounds (text : List Char) (cs s : Nat) (hcs : 1 ≤ cs)
    (hs : s < text.length) :
    s < iterTargetEnd fallbackTokenCount text cs s ∧
    iterTargetEnd fallbackTokenCount text cs s ≤ text.length := by
  unfold iterTargetEnd
  have h1 := estimateCharPosition_gt_start text s cs hcs hs
  have h2 := estimateCharPosition_le_length fallbackTokenCount text (s : Int) cs
  omega

theorem iterBreak_le (text : List Char) (cs : Nat) (rb : Bool) (s : Nat) (hcs : 1 ≤ cs)
    (hs : s < text.length) :
    iterBreak fallbackTokenCount text cs rb s ≤ text.length := by
  unfold iterBreak
  split_ifs with hb
  · exact findBreakPoint_le text _ (iterTargetEnd_bounds text cs s hcs hs).2
  · exact (iterTargetEnd_bounds text cs s hcs hs).2

theorem iterEnd_bounds (text : List Char) (cs : Nat) (rb : Bool) (s : Nat) (hcs : 1 ≤ cs)
    (hs : s < text.length) :
    s < iterEnd fallbackTokenCount text cs rb s ∧
    iterEnd fallbackTokenCount text cs rb s ≤ text.length := by
  unfold iterEnd
  split_ifs with hb
  · exact iterTargetEnd_bounds text cs s hcs hs
  · push_neg at hb
    exact ⟨hb, iterBreak_le text cs rb s hcs hs⟩

theorem overlapChars_nonneg (text : List Char) (o e : Nat) (he : e ≤ text.length) :
    0 ≤ overlapChars fallbackTokenCount text o e := by
  unfold overlapChars
  split_ifs with h
  · exact estimateCharPosition_overlap_nonneg text e o h he
  · exact le_refl 0

theorem chunkLoop_pairs (text : List Char) (cs o : Nat) (rb : Bool) (hcs : 1 ≤ cs) :
    ∀ fuel s, ∀ se ∈ chunkLoop fallbackTokenCount text cs o rb fuel s,
      se.1 < se.2 ∧ se.2 ≤ text.length := by
  intro fuel
  induction fuel with
  | zero => intro s se h; simp [chunkLoop] at h
  | succ f ih =>
    intro s se h
    rw [chunkLoop] at h
    split at h
    · simp at h
    · rename_i hlt
      rcases List.mem_cons.mp h with rfl | h
      · have := iterEnd_bounds text cs rb s hcs (by omega)
        simpa using this
      · exact ih _ se h

theorem chunkLoop_covers (text : List Char) (cs o : Nat) (rb : Bool) (hcs : 1 ≤ cs) :
    ∀ fuel s p, text.length - s ≤ fuel → s ≤ p → p < text.length →
      ∃ se ∈ chunkLoop fallbackTokenCount text cs o rb fuel s, se.1 ≤ p ∧ p < se.2 := by
  intro fuel
  induction fuel with
  | zero => intro s p h1 h2 h3; omega
  | succ f ih =>
    intro s p h1 h2 h3
    have hslt : s < text.length := by omega
    rw [chunkLoop, if_neg (by omega)]
    by_cases hp : p < iterEnd fallbackTokenCount text cs rb s
    · exact ⟨(s, iterEnd fallbackTokenCount text cs rb s), List.mem_cons_self _ _, h2, hp⟩
    · push_neg at hp
      have hend := iterEnd_bounds text cs rb s hcs hslt
      have hnext_le : nextStartFrom
          (overlapChars fallbackTokenCount text o (iterEnd fallbackTokenCount text cs rb s)) s
          (iterEnd fallbackTokenCount text cs rb s) ≤ iterEnd fallbackTokenCount text cs rb s :=
        nextStartFrom_le_end _ _ _ (overlapChars_nonneg text o _ hend.2) (by omega)
      have hnext_ge := nextStartFrom_ge
        (overlapChars fallbackTokenCount text o (iterEnd fallbackTokenCount text cs rb s)) s
        (iterEnd fallbackTokenCount text cs rb s)
      obtain ⟨se, hmem, hse⟩ := ih
        (nextStartFrom
          (overlapChars fallbackTokenCount text o (iterEnd fallbackTokenCount text cs rb s)) s
          (iterEnd fallbackTokenCount text cs rb s)) p (by omega) (by omega) h3
      exact ⟨se, List.mem_cons_of_mem _ hmem, hse⟩

/-- Claim C5 as amended: with the fallback token counter and a positive chunk
size, every returned chunk has `start_offset < end_offset ≤ len(text)`, and
every position of the text is covered either by a returned chunk's range or
by a loop-iteration window whose slice is entirely whitespace (such windows
are dropped by the emptiness filter and are the only uncovered parts; the
whitespace-only counterexample text is the extreme case). -/
theorem C5_coverage_except_whitespace (text : List Char) (chunkSize overlap : Nat)
    (rb : Bool) (htext : text ≠ []) (hcs : 1 ≤ chunkSize) :
    (∀ c ∈ chunkText fallbackTokenCount text chunkSize overlap rb,
        c.start_offset < c.end_offset ∧ c.end_offset ≤ text.length) ∧
    (∀ p, p < text.length →
        (∃ c ∈ chunkText fallbackTokenCount text chunkSize overlap rb,
            c.start_offset ≤ p ∧ p < c.end_offset) ∨
        (∃ se ∈ chunkIters fallbackTokenCount text chunkSize overlap rb,
            se.1 ≤ p ∧ p < se.2 ∧ (pyStrip (pySliceN text se.1 se.2)).isEmpty)) := by
  have hne : ¬text.isEmpty = true := by simp [htext]
  constructor
  · intro c hc
    rw [chunkText, if_neg hne] at hc
    rcases List.mem_filterMap.mp hc with ⟨se, hmem, hsome⟩
    obtain ⟨h1, h2, h3⟩ := chunkOfSpan_offsets fallbackTokenCount text se c hsome
    have h4 := chunkLoop_pairs text chunkSize overlap rb hcs text.length 0 se hmem
    omega
  · intro p hp
    obtain ⟨se, hmem, hse1, hse2⟩ :=
      chunkLoop_covers text chunkSize overlap rb hcs text.length 0 p (by omega) (by omega) hp
    by_cases hemp : (pyStrip (pySliceN text se.1 se.2)).isEmpty
    · exact Or.inr ⟨se, hmem, hse1, hse2, hemp⟩
    · left
      refine ⟨⟨pyStrip (pySliceN text se.1 se.2),
          fallbackTokenCount (pyStrip (pySliceN text se.1 se.2)), se.1, se.2⟩, ?_, hse1, hse2⟩
      rw [chunkText, if_neg hne]
      exact List.mem_filterMap.mpr ⟨se, hmem, by simp [chunkOfSpan, hemp]⟩

/-- Witness for the amended C5 at the text `"a b"`. -/
theorem C5_coverage_except_whitespace_witness :
    (∀ c ∈ chunkText fallbackTokenCount "a b".data 1 0 true,
        c.start_offset < c.end_offset ∧ c.end_offset ≤ "a b".data.length) ∧
    (∀ p, p < "a b".data.length →
        (∃ c ∈ chunkText fallbackTokenCount "a b".data 1 0 true,
            c.start_offset ≤ p ∧ p < c.end_offset) ∨
        (∃ se ∈ chunkIters fallbackTokenCount "a b".data 1 0 true,
            se.1 ≤ p ∧ p < se.2 ∧ (pyStrip (pySliceN "a b".data se.1 se.2)).isEmpty)) :=
  C5_coverage_except_whitespace "a b".data 1 0 true (by decide) (by decide)

end OIngest




